import Mathlib

/-!
Verification of the `code-line` single-line syntax-aware editing engine
(`CodeLine.ts` and its widgets) against its natural-language specification.

The TypeScript source is shallowly embedded: strings become `List Char`,
JavaScript `String.prototype.slice` becomes `jsSlice` over `Int` arguments
with the exact relative-index clamping semantics of the ECMAScript spec,
the tree-sitter syntax tree becomes the inductive `STree`, and the stateful
engine (`CodeLine`) becomes explicit state passing over `EngineState`.
External capabilities (the tree-sitter parser, its query engine, the DOM)
are modelled as free constructors or oracle parameters, exactly at the
narrow interfaces the source consumes them through.
-/

/-! ### JavaScript string slicing -/

/-- Resolution of one `String.prototype.slice` argument relative to a string of
length `len`: a negative index counts from the end and is clamped below at `0`;
a non-negative index is clamped above at `len`. -/
def sliceIndex (len : Nat) (k : Int) : Nat :=
  if k < 0 then ((len : Int) + k).toNat else min k.toNat len

/-- `s.slice(a, b)` of JavaScript on a `List Char`: the characters from the
resolved start index (inclusive) to the resolved end index (exclusive),
empty when the start is not before the end. -/
def jsSlice (l : List Char) (a b : Int) : List Char :=
  (l.take (sliceIndex l.length b)).drop (sliceIndex l.length a)

/-- `s.slice(a)` of JavaScript on a `List Char` (one-argument form,
the end defaults to the length). -/
def jsSliceFrom (l : List Char) (a : Int) : List Char :=
  l.drop (sliceIndex l.length a)

/-! ### Segments and tagged nodes (the Segmenter) -/

/-- One display segment pushed by `renderTree`
(`{names, text, offset}` in the source). -/
structure Segment where
  names : List String
  text : List Char
  offset : Nat
deriving DecidableEq

/-- One entry of the list returned by `getHighlight()`: a captured node's span
together with the tag names merged onto that node, already sorted by
`startIndex` (the sort at the end of `getHighlight`). -/
structure TaggedNode where
  startIndex : Nat
  endIndex : Nat
  names : List String
deriving DecidableEq

/-- The segment-construction loop of `renderTree` (source lines 245–273 of
`CodeLine.ts`): a single left-to-right pass with `source` holding the text not
yet emitted and `index` the absolute offset of its first character.  For each
tagged node it slices off the untagged run before the node and the node's own
span, pushing each only when non-empty, and finally pushes the untagged tail. -/
def buildSegmentsGo : List TaggedNode → List Char → Nat → List Segment
  | [], source, index =>
      if source.isEmpty then [] else [⟨[], source, index⟩]
  | n :: rest, source, index =>
      let pre := jsSlice source 0 ((n.startIndex : Int) - (index : Int))
      let text := jsSlice source ((n.startIndex : Int) - (index : Int))
        ((n.endIndex : Int) - (index : Int))
      let source2 := jsSliceFrom source ((n.endIndex : Int) - (index : Int))
      (if pre.isEmpty then [] else [⟨[], pre, index⟩]) ++
        ((if text.isEmpty then [] else [⟨n.names, text, n.startIndex⟩]) ++
          buildSegmentsGo rest source2 n.endIndex)

/-- The segment list `renderTree` computes for `text` from the sorted tagged
nodes of `getHighlight()`: the loop starts with the whole text and cursor 0. -/
def buildSegments (text : List Char) (nodes : List TaggedNode) : List Segment :=
  buildSegmentsGo nodes text 0

/-- The precondition of the tiling claim, relative to a left bound `lo` and the
text length `len`: the tagged nodes are processed in ascending start-offset
order, their spans are non-overlapping and lie within `[lo, len)` —
equivalently, the spans form a chain `lo ≤ s₁ ≤ e₁ ≤ s₂ ≤ e₂ ≤ ⋯ ≤ len`. -/
def validNodesFrom : Nat → Nat → List TaggedNode → Bool
  | _, _, [] => true
  | lo, len, n :: rest =>
      decide (lo ≤ n.startIndex) && decide (n.startIndex ≤ n.endIndex) &&
        decide (n.endIndex ≤ len) && validNodesFrom n.endIndex len rest

/-- The segment list exactly tiles the half-open interval `[lo, hi)`: each
segment is non-empty, starts where the previous one ended (the first at `lo`),
and the last ends at `hi`. -/
def tilesExactly : Nat → List Segment → Nat → Bool
  | lo, [], hi => decide (lo = hi)
  | lo, seg :: rest, hi =>
      decide (seg.offset = lo) && !seg.text.isEmpty &&
        tilesExactly (lo + seg.text.length) rest hi

/-- Concatenation of the segments' text in order. -/
def segConcat (segs : List Segment) : List Char :=
  segs.foldr (fun s acc => s.text ++ acc) []

/-! ### The syntax tree and `findSyntaxNode` (the NodeLocator) -/

/-- A tree-sitter syntax node as the engine observes it: a start offset, an end
offset and the ordered list of children.  (Node kinds and field names are never
consulted by the code under verification.) -/
inductive STree : Type where
  | node : Nat → Nat → List STree → STree

/-- The node's `startIndex`. -/
def STree.startIndex : STree → Nat
  | .node s _ _ => s

/-- The node's `endIndex`. -/
def STree.endIndex : STree → Nat
  | .node _ e _ => e

/-- The node's `children`. -/
def STree.children : STree → List STree
  | .node _ _ cs => cs

/-- Total number of nodes in a forest, used as the termination measure of the
cursor traversals below. -/
def sizeList : List STree → Nat
  | [] => 0
  | .node _ _ cs :: rest => 1 + sizeList cs + sizeList rest

theorem sizeList_append (a b : List STree) :
    sizeList (a ++ b) = sizeList a + sizeList b := by
  induction a with
  | nil => simp [sizeList]
  | cons t rest ih =>
      cases t with
      | node s e cs => simp [sizeList, ih]; omega

/-- The mutually recursive cursor walk of `findSyntaxNode` (source lines
195–223), with the cursor's parent/sibling context made explicit: the head of
the worklist is the node the cursor currently sits on, and the tail holds, in
order, its pending right siblings followed by the pending right siblings of
each ancestor (`findNext`'s goto-next-sibling / goto-parent loop consumes
exactly this list).  When the current node's `startIndex` is not below `index`
the traversal stops and returns the last recorded node. -/
def findFrom (index : Nat) : List STree → Option STree → Option STree
  | [], acc => acc
  | STree.node s e cs :: rest, _acc =>
      if s < index then
        findFrom index (cs ++ rest) (some (STree.node s e cs))
      else _acc
termination_by ts _ => sizeList ts
decreasing_by simp [sizeList_append, sizeList]

/-- `findSyntaxNode(index)`: walk the whole tree from the root with `lastNode`
initially unset. -/
def findSyntaxNode (t : STree) (index : Nat) : Option STree :=
  findFrom index [t] none

/-- The node sequence of the descent-prioritized depth-first (preorder)
traversal of a forest — the order in which the cursor of `findSyntaxNode`
visits nodes when nothing stops it. -/
def preorderList : List STree → List STree
  | [] => []
  | STree.node s e cs :: rest => STree.node s e cs :: preorderList (cs ++ rest)
termination_by ts => sizeList ts
decreasing_by simp [sizeList_append, sizeList]

/-- Spans of a sibling list form a chain inside `[lo, hi]`: each node starts no
earlier than the previous one ended (the first no earlier than `lo`), each span
is ordered, and the last ends by `hi`.  This is the span discipline tree-sitter
guarantees for the children of a node. -/
def chainWithin : Nat → Nat → List STree → Bool
  | lo, hi, [] => decide (lo ≤ hi)
  | lo, hi, c :: cs =>
      decide (lo ≤ c.startIndex) && decide (c.startIndex ≤ c.endIndex) &&
        chainWithin c.endIndex hi cs

/-- Well-formedness of a forest of tree-sitter nodes: every node's children
chain within the node's own span, recursively. -/
def wfList : List STree → Bool
  | [] => true
  | STree.node s e cs :: rest => chainWithin s e cs && wfList cs && wfList rest
termination_by ts => sizeList ts
decreasing_by all_goals (simp [sizeList] <;> omega)

/-! ### The engine state machine (`CodeLine`) -/

/-- An edit delta as handed to `tree.edit` by `sourceChange`: `startIndex`,
`oldEndIndex` and `newEndIndex` (the row/column positions the source also
fills in are determined by these, the document being single-line). -/
structure EditDelta where
  start : Int
  oldEnd : Int
  newEnd : Int
deriving DecidableEq

/-- A recorded selection `{start, end}` in absolute offsets (`end` is spelled
`endPos` because `end` is reserved in Lean). -/
structure Selection where
  start : Int
  endPos : Int
deriving DecidableEq

/-- The tree-sitter tree as a free term over the only operations the engine
applies to it: `parse1 text` is `parser.parse(text)`, `parse2 text prev` is
`parser.parse(text, prev)` (incremental reparse against `prev`), and
`edit t d` is `t.edit(d)` (patching the old tree with an edit description). -/
inductive TreeVal : Type where
  | parse1 : List Char → TreeVal
  | parse2 : List Char → TreeVal → TreeVal
  | edit : TreeVal → EditDelta → TreeVal
deriving DecidableEq

/-- A host event source the engine or a widget can subscribe on. -/
inductive HostTarget : Type where
  | root
  | doc
deriving DecidableEq

/-- The host events subscribed to in the source: `input` on the root,
`selectionchange` on the document, `keydown` on the root (complete widget). -/
inductive HostEvent : Type where
  | input
  | selectionchange
  | keydown
deriving DecidableEq

/-- One live host-event subscription; `owner` identifies the registering
closure (0 for the engine itself, `i + 1` for the i-th widget). -/
structure HostSub where
  target : HostTarget
  event : HostEvent
  owner : Nat
deriving DecidableEq

/-- Which engine event an emitter notification belongs to. -/
inductive EventKind : Type where
  | beforeChange
  | afterChange
deriving DecidableEq

/-- What a widget's `init` registers, abstracting the two widget classes of the
source: `CodeCompleteWidget` registers a `keydown` listener on the engine root
(into its own `disposables`) and subscribes to `afterChange`;
`CodeErrorWidget` registers no host listener and subscribes to `afterChange`. -/
structure WidgetSpec where
  hostKeydown : Bool
  subscribesAfter : Bool
deriving DecidableEq

/-- The `CodeCompleteWidget`: a `keydown` host listener plus an `afterChange`
subscription. -/
def completeWidget : WidgetSpec := ⟨true, true⟩

/-- The `CodeErrorWidget`: only an `afterChange` subscription. -/
def errorWidget : WidgetSpec := ⟨false, true⟩

/-- The observable state of one `CodeLine` instance.  DOM contents are
represented by the data that determines them: `segments` is the span list of
`codeArea`, `applied` the host range last applied by `restoreSelection`, and
`hostSel` the offsets the host's current selection translates to (the oracle
read by `fromSelectionChange`; `none` when the host has no range).
`beforeHandlers`/`afterHandlers` are the subscriber lists of the two emitters,
and `eventLog` records, per emit, which handlers were notified.

Modelled from the spec: `Emitter.ts` is not under `src/`; the spec describes
the event bus as a synchronous typed publish/subscribe channel, so an emit
notifies exactly the handlers subscribed at that moment.  `Disposable.ts` is
not under `src/` either; the spec describes a disposal group of unsubscribe
actions released atomically, so `engineDisposables` holds the removal actions
the engine's `CompositeDisposable` would run and `widgetDisposables` those
held by the widgets' own groups. -/
structure EngineState where
  source : List Char
  tree : TreeVal
  segments : List Segment
  sel : Option Selection
  hostSel : Option Selection
  applied : Option ((Segment × Int) × (Segment × Int))
  beforeHandlers : List Nat
  afterHandlers : List Nat
  eventLog : List (EventKind × List Nat)
  hostListeners : List HostSub
  engineDisposables : List HostSub
  widgetDisposables : List HostSub
deriving DecidableEq

/-- `events.beforeChange.emit()`: record a notification of the currently
subscribed handlers. -/
def emitBefore (st : EngineState) : EngineState :=
  { st with eventLog := st.eventLog ++ [(EventKind.beforeChange, st.beforeHandlers)] }

/-- `events.afterChange.emit()`. -/
def emitAfter (st : EngineState) : EngineState :=
  { st with eventLog := st.eventLog ++ [(EventKind.afterChange, st.afterHandlers)] }

/-- `fromSelectionChange`: if the host currently has a selection range, record
its absolute offsets into `_selection`; otherwise leave it untouched. -/
def fromSelectionChange (st : EngineState) : EngineState :=
  match st.hostSel with
  | some hs => { st with sel := some hs }
  | none => st

/-- `findNode(index)` (source lines 134–147): scan the rendered spans in order
and return the first whose range `[offset, offset + text.length]` contains
`index`, together with the local index `index - offset`; `undefined` (here
`none`) when no span contains it. -/
def findNode (segs : List Segment) (index : Int) : Option (Segment × Int) :=
  match segs with
  | [] => none
  | seg :: rest =>
      if (seg.offset : Int) ≤ index ∧ index ≤ (seg.offset : Int) + seg.text.length
      then some (seg, index - (seg.offset : Int))
      else findNode rest index

/-- The inverse translation used by `fromSelectionChange`: a position (span
identity plus local index) maps back to `data-offset + localIndex`. -/
def positionToOffset (p : Segment × Int) : Int :=
  (p.1.offset : Int) + p.2

/-- `selectionToRange(startIndex, endIndex)`: a host range exists exactly when
both endpoints map to a span. -/
def selectionToRange (segs : List Segment) (a b : Int) :
    Option ((Segment × Int) × (Segment × Int)) :=
  match findNode segs a, findNode segs b with
  | some p, some q => some (p, q)
  | _, _ => none

/-- `restoreSelection()`: if a selection is recorded and both endpoints map to
spans, apply the derived range to the host; otherwise do nothing. -/
def restoreSelection (st : EngineState) : EngineState :=
  match st.sel with
  | none => st
  | some s =>
      match selectionToRange st.segments s.start s.endPos with
      | none => st
      | some r => { st with applied := some r }

/-- `setSelection(start, end)`: record the selection, then immediately restore
it. -/
def setSelection (st : EngineState) (a b : Int) : EngineState :=
  restoreSelection { st with sel := some ⟨a, b⟩ }

/-- `renderTree()` (source lines 238–286), with `getHighlight()` abstracted as
the oracle `query` (it depends only on the compiled highlight query and the
current tree): compute the segment list, read the host selection
(`fromSelectionChange`), replace the rendered spans, restore the selection
against the new spans, and fire `afterChange`. -/
def renderTree (query : TreeVal → List TaggedNode) (st : EngineState) : EngineState :=
  let segs := buildSegments st.source (query st.tree)
  let st1 := fromSelectionChange st
  let st2 := { st1 with segments := segs }
  let st3 := restoreSelection st2
  emitAfter st3

/-- `sourceChange(newText, change?)` (source lines 172–193): fire
`beforeChange`, swap in the new text, then either patch the old tree with the
edit description and incrementally reparse against it (`change` given) or
fully reparse discarding the old tree (`change` absent), and render. -/
def sourceChange (query : TreeVal → List TaggedNode) (newText : List Char)
    (change : Option EditDelta) (st : EngineState) : EngineState :=
  let st1 := emitBefore st
  let st2 := { st1 with source := newText }
  let st3 :=
    match change with
    | some d => { st2 with tree := TreeVal.parse2 newText (TreeVal.edit st2.tree d) }
    | none => { st2 with tree := TreeVal.parse1 newText }
  renderTree query st3

/-- `replaceText(start, end, text)` (source lines 288–291): call `sourceChange`
on `source.slice(0, start) + text + source.slice(end)` — with no delta — then
set the selection collapsed at `start + text.length`. -/
def replaceText (query : TreeVal → List TaggedNode) (st : EngineState)
    (start endI : Int) (t : List Char) : EngineState :=
  let st1 := sourceChange query
    (jsSlice st.source 0 start ++ t ++ jsSliceFrom st.source endI) none st
  setSelection st1 (start + t.length) (start + t.length)

/-- `listenInput()`: subscribe to `input` on the root and add the removal to
the engine's disposal group. -/
def listenInput (st : EngineState) : EngineState :=
  let sub : HostSub := ⟨HostTarget.root, HostEvent.input, 0⟩
  { st with hostListeners := st.hostListeners ++ [sub]
            engineDisposables := st.engineDisposables ++ [sub] }

/-- `listenSelectionChange()`: subscribe to `selectionchange` on the document
and add the removal to the engine's disposal group. -/
def listenSelectionChange (st : EngineState) : EngineState :=
  let sub : HostSub := ⟨HostTarget.doc, HostEvent.selectionchange, 0⟩
  { st with hostListeners := st.hostListeners ++ [sub]
            engineDisposables := st.engineDisposables ++ [sub] }

/-- `widget.init(engine)` for the i-th attached widget: register its host
listeners (recording the removals in the widget's own disposal group, not the
engine's) and subscribe its `afterChange` handler. -/
def widgetInit (i : Nat) (w : WidgetSpec) (st : EngineState) : EngineState :=
  let subs : List HostSub :=
    if w.hostKeydown then [⟨HostTarget.root, HostEvent.keydown, i + 1⟩] else []
  { st with hostListeners := st.hostListeners ++ subs
            widgetDisposables := st.widgetDisposables ++ subs
            afterHandlers := st.afterHandlers ++
              (if w.subscribesAfter then [i + 1] else []) }

/-- `this.widgets.forEach(v => v.init(this))`, numbering widgets from `i`. -/
def initWidgets : Nat → List WidgetSpec → EngineState → EngineState
  | _, [], st => st
  | i, w :: ws, st => initWidgets (i + 1) ws (widgetInit i w st)

/-- The fresh state built by the constructor: `source` from the options,
everything else empty (`tree` is the uninitialized `tree!` field, modelled by a
placeholder that `init` overwrites before any read). -/
def freshState (src : List Char) : EngineState :=
  { source := src, tree := TreeVal.parse1 [], segments := [], sel := none
    hostSel := none, applied := none, beforeHandlers := [], afterHandlers := []
    eventLog := [], hostListeners := [], engineDisposables := []
    widgetDisposables := [] }

/-- `init()` (source lines 74–86): install the host listeners, run the initial
change cycle `sourceChange(this.source)`, and only then initialize the
widgets. -/
def engineInit (query : TreeVal → List TaggedNode) (src : List Char)
    (ws : List WidgetSpec) : EngineState :=
  let st1 := listenInput (freshState src)
  let st2 := listenSelectionChange st1
  let st3 := sourceChange query src none st2
  initWidgets 0 ws st3

/-- Removal of one host-event listener (`removeEventListener`). -/
def removeSub (sub : HostSub) (l : List HostSub) : List HostSub :=
  l.filter (fun x => !(x == sub))

/-- Running a disposal group: execute every recorded removal action.
Modelled from the spec: `Disposable.ts` (`CompositeDisposable`) is not under
`src/`; the spec describes it as a disposal group whose registered unsubscribe
actions are all released on teardown. -/
def runDisposers (ds : List HostSub) (l : List HostSub) : List HostSub :=
  ds.foldl (fun acc d => removeSub d acc) l

/-- `dispose()` (source lines 51–53): run the engine's own disposal group —
and nothing else; widget disposal groups are not touched. -/
def dispose (st : EngineState) : EngineState :=
  { st with hostListeners := runDisposers st.engineDisposables st.hostListeners
            engineDisposables := [] }

/-- A highlight oracle that captures nothing (no highlight query configured). -/
def emptyQuery : TreeVal → List TaggedNode := fun _ => []

/-- A concrete engine state: freshly created on the buffer `"ab"` with no
widgets and no highlighting. -/
def stAB : EngineState := engineInit emptyQuery ['a', 'b'] []

/-- A concrete engine state: freshly created on the empty buffer with no
widgets and no highlighting. -/
def stEmpty : EngineState := engineInit emptyQuery [] []

/-- A concrete engine state for the stale-offset scenario: one rendered
segment `"a"` at offset 0, with a recorded selection collapsed at the stale
offset 9 (as after the buffer shrank). -/
def stStale : EngineState :=
  { source := ['a'], tree := TreeVal.parse1 ['a']
    segments := [⟨[], ['a'], 0⟩], sel := some ⟨9, 9⟩, hostSel := none
    applied := none, beforeHandlers := [], afterHandlers := [], eventLog := []
    hostListeners := [], engineDisposables := [], widgetDisposables := [] }

/-! ### Basic facts about `jsSlice` at in-range natural arguments -/

theorem take_min (l : List Char) (k : Nat) : l.take (min k l.length) = l.take k := by
  rcases le_total k l.length with h | h
  · rw [min_eq_left h]
  · rw [min_eq_right h, List.take_length, List.take_of_length_le h]

theorem drop_min (l : List Char) (k : Nat) : l.drop (min k l.length) = l.drop k := by
  rcases le_total k l.length with h | h
  · rw [min_eq_left h]
  · rw [min_eq_right h, List.drop_length, List.drop_eq_nil_of_le h]

theorem sliceIndex_natCast (len k : Nat) : sliceIndex len (k : Int) = min k len := by
  simp [sliceIndex]

theorem jsSlice_zero_nat (l : List Char) (k : Nat) :
    jsSlice l 0 (k : Int) = l.take k := by
  have h0 : sliceIndex l.length 0 = 0 := by simp [sliceIndex]
  rw [jsSlice, sliceIndex_natCast, h0, List.drop_zero, take_min]

theorem jsSliceFrom_nat (l : List Char) (k : Nat) :
    jsSliceFrom l (k : Int) = l.drop k := by
  rw [jsSliceFrom, sliceIndex_natCast, drop_min]

theorem jsSlice_nat (l : List Char) (a b : Nat) (hb : b ≤ l.length) :
    jsSlice l (a : Int) (b : Int) = (l.take b).drop a := by
  rw [jsSlice, sliceIndex_natCast, sliceIndex_natCast, min_eq_left hb]
  rcases le_total a l.length with h | h
  · rw [min_eq_left h]
  · rw [min_eq_right h]
    have e1 : (l.take b).drop l.length = [] :=
      List.drop_eq_nil_of_le (by rw [List.length_take]; omega)
    have e2 : (l.take b).drop a = [] :=
      List.drop_eq_nil_of_le (by rw [List.length_take]; omega)
    rw [e1, e2]

/-! ### The tiling invariant of the Segmenter (claim C1) -/

theorem segConcat_nil : segConcat [] = [] := rfl

theorem segConcat_cons (s : Segment) (rest : List Segment) :
    segConcat (s :: rest) = s.text ++ segConcat rest := rfl

theorem segConcat_append (a b : List Segment) :
    segConcat (a ++ b) = segConcat a ++ segConcat b := by
  induction a with
  | nil => simp [segConcat]
  | cons s rest ih => simp [segConcat_cons, ih]

theorem tilesExactly_nil_iff (lo hi : Nat) :
    tilesExactly lo [] hi = true ↔ lo = hi := by
  simp [tilesExactly]

theorem tilesExactly_cons_iff (lo hi : Nat) (seg : Segment) (rest : List Segment) :
    tilesExactly lo (seg :: rest) hi = true ↔
      seg.offset = lo ∧ seg.text ≠ [] ∧
        tilesExactly (lo + seg.text.length) rest hi = true := by
  simp [tilesExactly, List.isEmpty_iff, and_assoc]

theorem buildSegmentsGo_spec :
    ∀ (nodes : List TaggedNode) (source : List Char) (index : Nat),
      validNodesFrom index (index + source.length) nodes = true →
      tilesExactly index (buildSegmentsGo nodes source index)
          (index + source.length) = true
        ∧ segConcat (buildSegmentsGo nodes source index) = source := by
  intro nodes
  induction nodes with
  | nil =>
      intro source index _
      by_cases hs : source.isEmpty
      · have : source = [] := List.isEmpty_iff.mp hs
        subst this
        simp [buildSegmentsGo, tilesExactly, segConcat]
      · simp [buildSegmentsGo, hs, tilesExactly, segConcat, List.isEmpty_iff]
  | cons n rest ih =>
      intro source index h
      simp only [validNodesFrom, Bool.and_eq_true, decide_eq_true_eq] at h
      obtain ⟨⟨⟨h1, h2⟩, h3⟩, h4⟩ := h
      have hs1 : ((n.startIndex : Int) - (index : Int))
          = ((n.startIndex - index : Nat) : Int) := by omega
      have he1 : ((n.endIndex : Int) - (index : Int))
          = ((n.endIndex - index : Nat) : Int) := by omega
      have hee : n.endIndex - index ≤ source.length := by omega
      have hpre : jsSlice source 0 ((n.startIndex : Int) - (index : Int))
          = source.take (n.startIndex - index) := by
        rw [hs1, jsSlice_zero_nat]
      have htext : jsSlice source ((n.startIndex : Int) - (index : Int))
            ((n.endIndex : Int) - (index : Int))
          = (source.take (n.endIndex - index)).drop (n.startIndex - index) := by
        rw [hs1, he1, jsSlice_nat _ _ _ hee]
      have hsrc2 : jsSliceFrom source ((n.endIndex : Int) - (index : Int))
          = source.drop (n.endIndex - index) := by
        rw [he1, jsSliceFrom_nat]
      have hlpre : (source.take (n.startIndex - index)).length
          = n.startIndex - index := by
        simp [List.length_take]; omega
      have hltext : ((source.take (n.endIndex - index)).drop
            (n.startIndex - index)).length = n.endIndex - n.startIndex := by
        simp [List.length_take]; omega
      have hlen : n.endIndex + (source.drop (n.endIndex - index)).length
          = index + source.length := by
        simp [List.length_drop]; omega
      have hIH := ih (source.drop (n.endIndex - index)) n.endIndex (by rw [hlen]; exact h4)
      rw [hlen] at hIH
      have hjoin : (source.take (n.endIndex - index)).take (n.startIndex - index)
          = source.take (n.startIndex - index) := by
        rw [List.take_take, min_eq_left (by omega)]
      have hcat : source.take (n.startIndex - index)
            ++ ((source.take (n.endIndex - index)).drop (n.startIndex - index)
            ++ source.drop (n.endIndex - index)) = source := by
        rw [← hjoin, ← List.append_assoc, List.take_append_drop,
          List.take_append_drop]
      simp only [buildSegmentsGo, hpre, htext, hsrc2]
      by_cases hP : (source.take (n.startIndex - index)).isEmpty
        <;> by_cases hT : ((source.take (n.endIndex - index)).drop
              (n.startIndex - index)).isEmpty
      · -- pre and text both empty: startIndex = index and endIndex = startIndex
        have hp0 : source.take (n.startIndex - index) = [] := List.isEmpty_iff.mp hP
        have ht0 : (source.take (n.endIndex - index)).drop (n.startIndex - index)
            = [] := List.isEmpty_iff.mp hT
        have hstart : n.startIndex = index := by
          have := hlpre
          rw [hp0] at this
          simp at this
          omega
        have hend : n.endIndex = n.startIndex := by
          have := hltext
          rw [ht0] at this
          simp at this
          omega
        simp only [hP, hT, if_true, List.nil_append]
        refine ⟨?_, ?_⟩
        · rw [hend, hstart] at hIH ⊢
          exact hIH.1
        · rw [hIH.2]
          rw [hp0, ht0] at hcat
          simpa using hcat
      · -- pre empty, text non-empty: startIndex = index
        have hp0 : source.take (n.startIndex - index) = [] := List.isEmpty_iff.mp hP
        have hstart : n.startIndex = index := by
          have := hlpre
          rw [hp0] at this
          simp at this
          omega
        simp [hP, hT]
        refine ⟨?_, ?_⟩
        · rw [tilesExactly_cons_iff]
          dsimp only
          refine ⟨?_, ?_, ?_⟩
          · exact hstart
          · simpa [List.isEmpty_iff] using hT
          · rw [hltext]
            have heq : index + (n.endIndex - n.startIndex) = n.endIndex := by omega
            rw [heq]
            exact hIH.1
        · rw [segConcat_cons, hIH.2]
          rw [hp0] at hcat
          simpa using hcat
      · -- pre non-empty, text empty: endIndex = startIndex
        have ht0 : (source.take (n.endIndex - index)).drop (n.startIndex - index)
            = [] := List.isEmpty_iff.mp hT
        have hend : n.endIndex = n.startIndex := by
          have := hltext
          rw [ht0] at this
          simp at this
          omega
        simp [hP, hT]
        refine ⟨?_, ?_⟩
        · rw [tilesExactly_cons_iff]
          dsimp only
          refine ⟨rfl, by simpa [List.isEmpty_iff] using hP, ?_⟩
          rw [hlpre]
          have heq : index + (n.startIndex - index) = n.endIndex := by omega
          rw [heq]
          exact hIH.1
        · rw [segConcat_cons, hIH.2]
          rw [ht0] at hcat
          simpa using hcat
      · -- both non-empty
        simp [hP, hT]
        refine ⟨?_, ?_⟩
        · rw [tilesExactly_cons_iff]
          dsimp only
          refine ⟨rfl, by simpa [List.isEmpty_iff] using hP, ?_⟩
          rw [tilesExactly_cons_iff]
          dsimp only
          refine ⟨by rw [hlpre]; omega, by simpa [List.isEmpty_iff] using hT, ?_⟩
          rw [hlpre, hltext]
          have heq : index + (n.startIndex - index) + (n.endIndex - n.startIndex)
              = n.endIndex := by omega
          rw [heq]
          exact hIH.1
        · rw [segConcat_cons, segConcat_cons, hIH.2]
          simpa using hcat

theorem tiles_lo_le (segs : List Segment) :
    ∀ (lo hi : Nat), tilesExactly lo segs hi = true → ∀ x ∈ segs, lo ≤ x.offset := by
  induction segs with
  | nil => intro lo hi _ x hx; cases hx
  | cons a rest ih =>
      intro lo hi h x hx
      rw [tilesExactly_cons_iff] at h
      rcases List.mem_cons.mp hx with hx | hx
      · subst hx; omega
      · have := ih (lo + a.text.length) hi h.2.2 x hx
        omega

theorem tiles_chain (segs : List Segment) :
    ∀ (lo hi : Nat), tilesExactly lo segs hi = true →
      List.Chain' (fun a b => a.offset + a.text.length = b.offset) segs := by
  induction segs with
  | nil => intro lo hi _; exact List.chain'_nil
  | cons a rest ih =>
      intro lo hi h
      rw [tilesExactly_cons_iff] at h
      rw [List.chain'_cons']
      refine ⟨?_, ih (lo + a.text.length) hi h.2.2⟩
      intro y hy
      cases rest with
      | nil => cases hy
      | cons b rest2 =>
          have hb : b = y := by simpa using hy
          subst hb
          have h2 := h.2.2
          rw [tilesExactly_cons_iff] at h2
          omega

theorem tiles_pairwise (segs : List Segment) :
    ∀ (lo hi : Nat), tilesExactly lo segs hi = true →
      List.Pairwise (fun a b => a.offset < b.offset) segs := by
  induction segs with
  | nil => intro lo hi _; exact List.Pairwise.nil
  | cons a rest ih =>
      intro lo hi h
      rw [tilesExactly_cons_iff] at h
      refine List.Pairwise.cons ?_ (ih (lo + a.text.length) hi h.2.2)
      intro y hy
      have hlen : 0 < a.text.length := List.length_pos.mpr h.2.1
      have := tiles_lo_le rest (lo + a.text.length) hi h.2.2 y hy
      omega

theorem tiles_last (segs : List Segment) :
    ∀ (lo hi : Nat), tilesExactly lo segs hi = true →
      ∀ x, segs.getLast? = some x → x.offset + x.text.length = hi := by
  induction segs with
  | nil => intro lo hi _ x hx; cases hx
  | cons a rest ih =>
      intro lo hi h x hx
      rw [tilesExactly_cons_iff] at h
      cases rest with
      | nil =>
          have hax : a = x := by simpa using hx
          subst hax
          rw [tilesExactly_nil_iff] at *
          omega
      | cons b rest2 =>
          have hx2 : (b :: rest2).getLast? = some x := by
            rw [← hx]; exact List.getLast?_cons_cons.symm
          exact ih (lo + a.text.length) hi h.2.2 x hx2

/-- C1: for every source text and every set of tagged nodes whose spans are
non-overlapping, lie within `[0, length text)` and are processed in ascending
start-offset order, the segment list produced by the render step is in
ascending offset order, exactly tiles `[0, length text)` with no gap or
overlap — each segment ends where the next begins, the first starts at 0 and
the last ends at `length text` — and concatenating the segments' text in order
reproduces the source text exactly. -/
theorem render_segments_tile (text : List Char) (nodes : List TaggedNode)
    (h : validNodesFrom 0 text.length nodes = true) :
    tilesExactly 0 (buildSegments text nodes) text.length = true
      ∧ List.Pairwise (fun a b => a.offset < b.offset) (buildSegments text nodes)
      ∧ List.Chain' (fun a b => a.offset + a.text.length = b.offset)
          (buildSegments text nodes)
      ∧ (∀ s0, (buildSegments text nodes).head? = some s0 → s0.offset = 0)
      ∧ (∀ sl, (buildSegments text nodes).getLast? = some sl →
          sl.offset + sl.text.length = text.length)
      ∧ segConcat (buildSegments text nodes) = text := by
  have h0 : validNodesFrom 0 (0 + text.length) nodes = true := by
    simpa using h
  have hmain := buildSegmentsGo_spec nodes text 0 h0
  rw [Nat.zero_add] at hmain
  have ht : tilesExactly 0 (buildSegments text nodes) text.length = true := hmain.1
  refine ⟨ht, tiles_pairwise _ 0 text.length ht, tiles_chain _ 0 text.length ht,
    ?_, tiles_last _ 0 text.length ht, hmain.2⟩
  intro s0 h0'
  cases hsegs : buildSegments text nodes with
  | nil => rw [hsegs] at h0'; cases h0'
  | cons a rest =>
      rw [hsegs] at h0' ht
      have : a = s0 := by simpa using h0'
      subst this
      rw [tilesExactly_cons_iff] at ht
      exact ht.1

/-- Witness for C1: the buffer `"1+2"` with number captures `[0,1)` and
`[2,3)`. -/
theorem render_segments_tile_witness :
    validNodesFrom 0 3 [⟨0, 1, ["number"]⟩, ⟨2, 3, ["number"]⟩] = true
      ∧ (tilesExactly 0
            (buildSegments ['1', '+', '2'] [⟨0, 1, ["number"]⟩, ⟨2, 3, ["number"]⟩])
            (['1', '+', '2'] : List Char).length = true
        ∧ List.Pairwise (fun a b => a.offset < b.offset)
            (buildSegments ['1', '+', '2'] [⟨0, 1, ["number"]⟩, ⟨2, 3, ["number"]⟩])
        ∧ List.Chain' (fun a b => a.offset + a.text.length = b.offset)
            (buildSegments ['1', '+', '2'] [⟨0, 1, ["number"]⟩, ⟨2, 3, ["number"]⟩])
        ∧ (∀ s0, (buildSegments ['1', '+', '2']
              [⟨0, 1, ["number"]⟩, ⟨2, 3, ["number"]⟩]).head? = some s0 →
            s0.offset = 0)
        ∧ (∀ sl, (buildSegments ['1', '+', '2']
              [⟨0, 1, ["number"]⟩, ⟨2, 3, ["number"]⟩]).getLast? = some sl →
            sl.offset + sl.text.length = (['1', '+', '2'] : List Char).length)
        ∧ segConcat (buildSegments ['1', '+', '2']
            [⟨0, 1, ["number"]⟩, ⟨2, 3, ["number"]⟩]) = ['1', '+', '2']) :=
  ⟨by decide, render_segments_tile ['1', '+', '2']
    [⟨0, 1, ["number"]⟩, ⟨2, 3, ["number"]⟩] (by decide)⟩

/-! ### `findSyntaxNode` as a stopped preorder traversal (claims C5, C6) -/

theorem getLast?_cons_eq {α : Type _} (a : α) (l : List α) :
    (a :: l).getLast? = some (l.getLast?.getD a) := by
  induction l generalizing a with
  | nil => rfl
  | cons b bs ih =>
      rw [List.getLast?_cons_cons, ih b]
      simp

theorem takeWhile_eq_nil_of_false {α : Type _} (p : α → Bool) (l : List α)
    (h : ∀ x ∈ l, p x = false) : l.takeWhile p = [] := by
  cases l with
  | nil => rfl
  | cons a as =>
      rw [List.takeWhile_cons, h a (List.mem_cons_self a as)]
      simp

/-- The cursor walk of `findSyntaxNode`, characterized: it returns the last
node of the maximal preorder prefix whose members all start strictly before
`index` — the accumulator when that prefix is empty. -/
theorem findFrom_spec (index : Nat) (ts : List STree) (acc : Option STree) :
    findFrom index ts acc =
      match ((preorderList ts).takeWhile
          (fun n => decide (n.startIndex < index))).getLast? with
      | some n => some n
      | none => acc := by
  induction ts, acc using findFrom.induct index with
  | case1 acc => simp [findFrom, preorderList]
  | case2 s e cs rest acc h ih =>
      rw [findFrom]
      rw [if_pos h, ih]
      rw [preorderList]
      rw [List.takeWhile_cons]
      have hp : decide ((STree.node s e cs).startIndex < index) = true := by
        simp [STree.startIndex, h]
      rw [hp]
      simp only [if_true]
      rw [getLast?_cons_eq]
      cases hl : ((preorderList (cs ++ rest)).takeWhile
          (fun n => decide (n.startIndex < index))).getLast? with
      | none => simp
      | some m => simp
  | case3 s e cs rest acc h =>
      rw [findFrom]
      rw [if_neg h]
      rw [preorderList]
      rw [List.takeWhile_cons]
      have hp : decide ((STree.node s e cs).startIndex < index) = false := by
        simp [STree.startIndex]
        omega
      rw [hp]
      simp

/-- C5: `findSyntaxNode(offset)` returns the last node visited by the
descent-prioritized depth-first traversal among nodes whose start offset is
strictly less than `offset`, and returns `none` when no node of the tree has
start offset strictly less than `offset` — in particular, for offset 0 it
always returns `none`. -/
theorem findSyntaxNode_last_visited (t : STree) (index : Nat) :
    findSyntaxNode t index
        = ((preorderList [t]).takeWhile
            (fun n => decide (n.startIndex < index))).getLast?
      ∧ ((∀ n ∈ preorderList [t], ¬ n.startIndex < index) →
          findSyntaxNode t index = none)
      ∧ findSyntaxNode t 0 = none := by
  have key : ∀ i : Nat, findSyntaxNode t i
      = ((preorderList [t]).takeWhile
          (fun n => decide (n.startIndex < i))).getLast? := by
    intro i
    rw [findSyntaxNode, findFrom_spec]
    cases hl : ((preorderList [t]).takeWhile
        (fun n => decide (n.startIndex < i))).getLast? with
    | none => simp
    | some m => simp
  refine ⟨key index, ?_, ?_⟩
  · intro hall
    rw [key index, takeWhile_eq_nil_of_false]
    · rfl
    · intro x hx
      simp [hall x hx]
  · rw [key 0, takeWhile_eq_nil_of_false]
    · rfl
    · intro x _
      simp

/-- Witness for C5: on a concrete tree, offset 0 maps to `none`. -/
theorem findSyntaxNode_last_visited_witness :
    findSyntaxNode (STree.node 0 3 [STree.node 0 1 [], STree.node 2 3 []]) 0
      = none :=
  (findSyntaxNode_last_visited (STree.node 0 3 [STree.node 0 1 [], STree.node 2 3 []]) 0).2.2

theorem chainWithin_le (l : List STree) :
    ∀ (lo hi : Nat), chainWithin lo hi l = true → lo ≤ hi := by
  induction l with
  | nil => intro lo hi h; simpa [chainWithin] using h
  | cons c cs ih =>
      intro lo hi h
      simp only [chainWithin, Bool.and_eq_true, decide_eq_true_eq] at h
      have := ih c.endIndex hi h.2
      omega

theorem chainWithin_weaken (l : List STree) :
    ∀ (a b hi : Nat), a ≤ b → chainWithin b hi l = true →
      chainWithin a hi l = true := by
  induction l with
  | nil =>
      intro a b hi hab h
      simp only [chainWithin, decide_eq_true_eq] at *
      omega
  | cons c cs _
    =>
      intro a b hi hab h
      simp only [chainWithin, Bool.and_eq_true, decide_eq_true_eq] at *
      exact ⟨⟨by omega, h.1.2⟩, h.2⟩

theorem chainWithin_append (x : List STree) :
    ∀ (y : List STree) (a b c : Nat), chainWithin a b x = true →
      chainWithin b c y = true → chainWithin a c (x ++ y) = true := by
  induction x with
  | nil =>
      intro y a b c hx hy
      simp only [chainWithin, decide_eq_true_eq] at hx
      simpa using chainWithin_weaken y a b c hx hy
  | cons t ts ih =>
      intro y a b c hx hy
      simp only [chainWithin, Bool.and_eq_true, decide_eq_true_eq] at hx ⊢
      exact ⟨hx.1, ih y t.endIndex b c hx.2 hy⟩

theorem wfList_append (a : List STree) :
    ∀ b : List STree, wfList (a ++ b) = (wfList a && wfList b) := by
  induction a with
  | nil => intro b; simp [wfList]
  | cons t ts ih =>
      cases t with
      | node s e cs =>
          intro b
          rw [List.cons_append, wfList, wfList, ih b]
          simp [Bool.and_assoc]

/-- Over a well-formed forest whose spans chain inside `[lo, hi]`, the preorder
node sequence has non-decreasing start offsets, all within `[lo, hi]`. -/
theorem preorder_starts_mono (ts : List STree) :
    ∀ (lo hi : Nat), wfList ts = true → chainWithin lo hi ts = true →
      List.Chain' (fun a b => a.startIndex ≤ b.startIndex) (preorderList ts)
        ∧ ∀ n ∈ preorderList ts, lo ≤ n.startIndex ∧ n.startIndex ≤ hi := by
  induction ts using preorderList.induct with
  | case1 =>
      intro lo hi _ _
      simp [preorderList]
  | case2 s e cs rest ih =>
      intro lo hi hwf hch
      rw [wfList, Bool.and_eq_true, Bool.and_eq_true] at hwf
      obtain ⟨⟨hcse, hwcs⟩, hwrest⟩ := hwf
      simp only [chainWithin, Bool.and_eq_true, decide_eq_true_eq,
        STree.startIndex, STree.endIndex] at hch
      obtain ⟨⟨hlos, hse⟩, hcrest⟩ := hch
      have hehi : e ≤ hi := chainWithin_le rest e hi hcrest
      have hwcat : wfList (cs ++ rest) = true := by
        rw [wfList_append, hwcs, hwrest]
        rfl
      have hccat : chainWithin s hi (cs ++ rest) = true :=
        chainWithin_append cs rest s e hi hcse hcrest
      have hIH := ih s hi hwcat hccat
      rw [preorderList]
      constructor
      · rw [List.chain'_cons']
        refine ⟨?_, hIH.1⟩
        intro y hy
        have hmem : y ∈ preorderList (cs ++ rest) := List.mem_of_mem_head? hy
        exact (hIH.2 y hmem).1
      · intro n hn
        rcases List.mem_cons.mp hn with hn | hn
        · subst hn
          exact ⟨hlos, by simpa [STree.startIndex] using le_trans hse hehi⟩
        · have := hIH.2 n hn
          exact ⟨le_trans hlos this.1, this.2⟩

theorem getLast_takeWhile_mono {p q : STree → Bool}
    (hpq : ∀ x, p x = true → q x = true) :
    ∀ (l : List STree),
      List.Pairwise (fun a b => a.startIndex ≤ b.startIndex) l →
      ∀ n1 n2, (l.takeWhile p).getLast? = some n1 →
        (l.takeWhile q).getLast? = some n2 →
        n1.startIndex ≤ n2.startIndex := by
  intro l
  induction l with
  | nil =>
      intro _ n1 n2 h1 _
      simp at h1
  | cons x xs ih =>
      intro hpw n1 n2 h1 h2
      rw [List.pairwise_cons] at hpw
      by_cases hpx : p x = true
      · have hqx : q x = true := hpq x hpx
        rw [List.takeWhile_cons, hpx, if_pos rfl, getLast?_cons_eq] at h1
        rw [List.takeWhile_cons, hqx, if_pos rfl, getLast?_cons_eq] at h2
        cases hl1 : (xs.takeWhile p).getLast? with
        | none =>
            rw [hl1] at h1
            simp at h1
            cases hl2 : (xs.takeWhile q).getLast? with
            | none =>
                rw [hl2] at h2
                simp at h2
                rw [← h1, ← h2]
            | some m2 =>
                rw [hl2] at h2
                simp at h2
                have hm2 : m2 ∈ xs :=
                  List.takeWhile_subset q (List.mem_of_mem_getLast? hl2)
                rw [← h1, ← h2]
                exact hpw.1 m2 hm2
        | some m1 =>
            rw [hl1] at h1
            simp at h1
            have htkp : xs.takeWhile p ≠ [] := by
              intro hc
              rw [hc] at hl1
              cases hl1
            have htkq : (xs.takeWhile q).getLast?.isSome = true := by
              cases xs with
              | nil => simp [List.takeWhile] at htkp
              | cons y ys =>
                  rw [List.takeWhile_cons] at htkp ⊢
                  by_cases hpy : p y = true
                  · rw [hpq y hpy, if_pos rfl, getLast?_cons_eq]
                    rfl
                  · rw [Bool.not_eq_true] at hpy
                    rw [hpy] at htkp
                    simp at htkp
            cases hl2 : (xs.takeWhile q).getLast? with
            | none => rw [hl2] at htkq; cases htkq
            | some m2 =>
                rw [hl2] at h2
                simp at h2
                rw [← h1, ← h2]
                exact ih hpw.2 m1 m2 hl1 hl2
      · rw [Bool.not_eq_true] at hpx
        rw [List.takeWhile_cons, hpx] at h1
        simp at h1

/-- C6: lookup monotonicity — on a (well-formed, as tree-sitter guarantees)
syntax tree, for offsets `o1 < o2` at which `findSyntaxNode` returns a node at
both, the start offset of the node returned for `o1` is at most that of the
node returned for `o2`. -/
theorem findSyntaxNode_mono (t : STree) (o1 o2 : Nat)
    (hwf : wfList [t] = true) (h12 : o1 < o2) (n1 n2 : STree)
    (e1 : findSyntaxNode t o1 = some n1) (e2 : findSyntaxNode t o2 = some n2) :
    n1.startIndex ≤ n2.startIndex := by
  cases t with
  | node s e cs =>
      have hwf' := hwf
      rw [wfList, wfList, Bool.and_eq_true, Bool.and_eq_true] at hwf'
      obtain ⟨⟨hcse, hwcs⟩, _⟩ := hwf'
      have hse : s ≤ e := chainWithin_le cs s e hcse
      have hch : chainWithin 0 e [STree.node s e cs] = true := by
        simp only [chainWithin, Bool.and_eq_true, decide_eq_true_eq,
          STree.startIndex, STree.endIndex]
        omega
      have hmono := preorder_starts_mono [STree.node s e cs] 0 e hwf hch
      have hpar : List.Pairwise (fun a b => a.startIndex ≤ b.startIndex)
          (preorderList [STree.node s e cs]) := by
        haveI : IsTrans STree (fun a b => a.startIndex ≤ b.startIndex) :=
          ⟨fun _ _ _ hab hbc => le_trans hab hbc⟩
        exact List.chain'_iff_pairwise.mp hmono.1
      have k1 : ((preorderList [STree.node s e cs]).takeWhile
          (fun n => decide (n.startIndex < o1))).getLast? = some n1 := by
        have h := findFrom_spec o1 [STree.node s e cs] none
        rw [findSyntaxNode] at e1
        rw [h] at e1
        cases hl : ((preorderList [STree.node s e cs]).takeWhile
            (fun n => decide (n.startIndex < o1))).getLast? with
        | none => rw [hl] at e1; cases e1
        | some m => rw [hl] at e1; simp at e1; rw [e1]
      have k2 : ((preorderList [STree.node s e cs]).takeWhile
          (fun n => decide (n.startIndex < o2))).getLast? = some n2 := by
        have h := findFrom_spec o2 [STree.node s e cs] none
        rw [findSyntaxNode] at e2
        rw [h] at e2
        cases hl : ((preorderList [STree.node s e cs]).takeWhile
            (fun n => decide (n.startIndex < o2))).getLast? with
        | none => rw [hl] at e2; cases e2
        | some m => rw [hl] at e2; simp at e2; rw [e2]
      exact getLast_takeWhile_mono
        (p := fun n => decide (n.startIndex < o1))
        (q := fun n => decide (n.startIndex < o2))
        (fun x hx => by
          simp only [decide_eq_true_eq] at *
          omega)
        (preorderList [STree.node s e cs]) hpar n1 n2 k1 k2

/-- Witness for C6: the tree `(0,3)[(0,1)[], (2,3)[]]` with offsets 1 < 3. -/
theorem findSyntaxNode_mono_witness :
    wfList [STree.node 0 3 [STree.node 0 1 [], STree.node 2 3 []]] = true
      ∧ (1 : Nat) < 3
      ∧ findSyntaxNode (STree.node 0 3 [STree.node 0 1 [], STree.node 2 3 []]) 1
          = some (STree.node 0 1 [])
      ∧ findSyntaxNode (STree.node 0 3 [STree.node 0 1 [], STree.node 2 3 []]) 3
          = some (STree.node 2 3 [])
      ∧ (STree.node 0 1 []).startIndex ≤ (STree.node 2 3 []).startIndex := by
  have hw : wfList [STree.node 0 3 [STree.node 0 1 [], STree.node 2 3 []]]
      = true := by
    simp [wfList, chainWithin, STree.startIndex, STree.endIndex]
  have he1 : findSyntaxNode (STree.node 0 3 [STree.node 0 1 [], STree.node 2 3 []]) 1
      = some (STree.node 0 1 []) := by
    simp [findSyntaxNode, findFrom]
  have he2 : findSyntaxNode (STree.node 0 3 [STree.node 0 1 [], STree.node 2 3 []]) 3
      = some (STree.node 2 3 []) := by
    simp [findSyntaxNode, findFrom]
  exact ⟨hw, by omega, he1, he2,
    findSyntaxNode_mono _ 1 3 hw (by omega) _ _ he1 he2⟩

/-! ### The edit entry point (claims C2, C4, C10) -/

/-- C2 counterexample: on the engine for `"ab"`, `replaceText(1, 1, "x")` does
not produce the incrementally reparsed tree
`parse2 newText (edit oldTree {start := 1, oldEnd := 1, newEnd := 2})` that the
claim describes: the call passes no delta, so the old tree is never edited. -/
theorem replaceText_not_incremental :
    ¬ ((replaceText emptyQuery stAB 1 1 ['x']).tree
        = TreeVal.parse2
            (jsSlice stAB.source 0 1 ++ ['x'] ++ jsSliceFrom stAB.source 1)
            (TreeVal.edit stAB.tree ⟨1, 1, 2⟩)) := by
  decide

/-- C2 amended: `replaceText(start, end, text)` calls `sourceChange` with no
delta, so every such edit takes the full-reparse path — the old tree is
discarded and the new text `source.slice(0, start) + text + source.slice(end)`
is parsed from scratch with no previous tree. -/
theorem replaceText_full_reparse (query : TreeVal → List TaggedNode)
    (st : EngineState) (s e : Int) (t : List Char) :
    (replaceText query st s e t).tree
      = TreeVal.parse1 (jsSlice st.source 0 s ++ t ++ jsSliceFrom st.source e) := by
  unfold replaceText setSelection sourceChange renderTree emitBefore emitAfter
    fromSelectionChange restoreSelection
  dsimp only
  repeat' split
  all_goals rfl

/-- The buffer and recorded selection after `replaceText`, for arbitrary
integer arguments (claim C10, also the backbone of claim C4): the new source
is exactly `source.slice(0, start) + text + source.slice(end)` under
JavaScript slice semantics, and the recorded selection is collapsed at
`start + text.length`.  Total by construction: no precondition is required. -/
theorem replaceText_source_sel (query : TreeVal → List TaggedNode)
    (st : EngineState) (s e : Int) (t : List Char) :
    (replaceText query st s e t).source
        = jsSlice st.source 0 s ++ t ++ jsSliceFrom st.source e
      ∧ (replaceText query st s e t).sel
        = some ⟨s + t.length, s + t.length⟩ := by
  unfold replaceText setSelection sourceChange renderTree emitBefore emitAfter
    fromSelectionChange restoreSelection
  dsimp only
  constructor
  · repeat' split
    all_goals rfl
  · repeat' split
    all_goals rfl

/-- C4: edit round-trip — for `0 ≤ s ≤ e ≤ length source`, `replaceText`
yields the buffer `source[:s] + t + source[e:]` and records the collapsed
selection `{start := s + length t, end := s + length t}`. -/
theorem replaceText_roundtrip (query : TreeVal → List TaggedNode)
    (st : EngineState) (s e : Nat) (t : List Char)
    (h1 : s ≤ e) (h2 : e ≤ st.source.length) :
    (replaceText query st (s : Int) (e : Int) t).source
        = st.source.take s ++ t ++ st.source.drop e
      ∧ (replaceText query st (s : Int) (e : Int) t).sel
        = some ⟨(s : Int) + t.length, (s : Int) + t.length⟩ := by
  have h := replaceText_source_sel query st (s : Int) (e : Int) t
  refine ⟨?_, h.2⟩
  rw [h.1, jsSlice_zero_nat, jsSliceFrom_nat]

/-- Witness for C4: the spec scenario `replaceRange(0, 0, "x")` on an empty
buffer — text becomes `"x"`, selection becomes `{1, 1}`. -/
theorem replaceText_roundtrip_witness :
    (0 : Nat) ≤ 0 ∧ (0 : Nat) ≤ stEmpty.source.length
      ∧ ((replaceText emptyQuery stEmpty ((0 : Nat) : Int) ((0 : Nat) : Int)
            ['x']).source
          = stEmpty.source.take 0 ++ ['x'] ++ stEmpty.source.drop 0
        ∧ (replaceText emptyQuery stEmpty ((0 : Nat) : Int) ((0 : Nat) : Int)
            ['x']).sel
          = some ⟨((0 : Nat) : Int) + (['x'] : List Char).length,
              ((0 : Nat) : Int) + (['x'] : List Char).length⟩) :=
  ⟨le_refl 0, by decide,
    replaceText_roundtrip emptyQuery stEmpty 0 0 ['x'] (by decide) (by decide)⟩

/-- C10: `replaceText` is total — for every buffer, every string and all
integer arguments (out-of-range and inverted included, with no precondition),
it produces `source.slice(0, start) + t + source.slice(end)` under clamping
slice semantics and records the collapsed selection at `start + length t`. -/
theorem replaceText_total (query : TreeVal → List TaggedNode)
    (st : EngineState) (s e : Int) (t : List Char) :
    (replaceText query st s e t).source
        = jsSlice st.source 0 s ++ t ++ jsSliceFrom st.source e
      ∧ (replaceText query st s e t).sel
        = some ⟨s + t.length, s + t.length⟩ :=
  replaceText_source_sel query st s e t

/-! ### Construction ordering and the event bus (claim C9) -/

theorem initWidgets_eventLog (ws : List WidgetSpec) :
    ∀ (i : Nat) (st : EngineState), (initWidgets i ws st).eventLog = st.eventLog := by
  induction ws with
  | nil => intro i st; rfl
  | cons w ws ih =>
      intro i st
      rw [initWidgets, ih]
      rfl

theorem initWidgets_afterHandlers_mono (ws : List WidgetSpec) :
    ∀ (i : Nat) (st : EngineState) (x : Nat), x ∈ st.afterHandlers →
      x ∈ (initWidgets i ws st).afterHandlers := by
  induction ws with
  | nil => intro i st x hx; exact hx
  | cons w ws ih =>
      intro i st x hx
      rw [initWidgets]
      refine ih (i + 1) _ x ?_
      simp [widgetInit]
      exact Or.inl hx

theorem initWidgets_afterHandlers_mem (ws : List WidgetSpec) :
    ∀ (i : Nat) (st : EngineState) (j : Nat) (hj : j < ws.length),
      (ws.get ⟨j, hj⟩).subscribesAfter = true →
      (i + j + 1) ∈ (initWidgets i ws st).afterHandlers := by
  induction ws with
  | nil => intro i st j hj; cases hj
  | cons w ws ih =>
      intro i st j hj hsub
      cases j with
      | zero =>
          rw [initWidgets]
          apply initWidgets_afterHandlers_mono
          simp only [List.get] at hsub
          simp [widgetInit, hsub]
      | succ j =>
          rw [initWidgets]
          have heq : i + (j + 1) + 1 = (i + 1) + j + 1 := by omega
          rw [heq]
          exact ih (i + 1) _ j (by simpa using hj) (by simpa using hsub)

theorem sourceChange_eventLog (query : TreeVal → List TaggedNode)
    (newText : List Char) (change : Option EditDelta) (st : EngineState) :
    (sourceChange query newText change st).eventLog
      = st.eventLog ++ [(EventKind.beforeChange, st.beforeHandlers),
          (EventKind.afterChange, st.afterHandlers)] := by
  unfold sourceChange renderTree emitBefore emitAfter fromSelectionChange
    restoreSelection
  dsimp only
  repeat' split
  all_goals simp

theorem engineInit_eventLog (query : TreeVal → List TaggedNode)
    (src : List Char) (ws : List WidgetSpec) :
    (engineInit query src ws).eventLog
      = [(EventKind.beforeChange, []), (EventKind.afterChange, [])] := by
  unfold engineInit
  rw [initWidgets_eventLog, sourceChange_eventLog]
  rfl

/-- C9: the construction cycle — the first parse and render run by `init()` —
fires its `beforeChange` and `afterChange` before any widget's `init` runs, so
no widget handler is notified during construction (every notification list in
the construction log is empty); every widget that subscribes to `afterChange`
is registered by the end of `init()`, and the first post-construction mutation
notifies exactly the then-registered handler lists. -/
theorem construction_cycle_unobserved (query : TreeVal → List TaggedNode)
    (src newText : List Char) (ws : List WidgetSpec) :
    (∀ entry ∈ (engineInit query src ws).eventLog, entry.2 = [])
      ∧ (∀ (j : Nat) (hj : j < ws.length),
          (ws.get ⟨j, hj⟩).subscribesAfter = true →
          (j + 1) ∈ (engineInit query src ws).afterHandlers)
      ∧ (sourceChange query newText none (engineInit query src ws)).eventLog
          = (engineInit query src ws).eventLog
            ++ [(EventKind.beforeChange, (engineInit query src ws).beforeHandlers),
                (EventKind.afterChange, (engineInit query src ws).afterHandlers)] := by
  refine ⟨?_, ?_, sourceChange_eventLog _ _ _ _⟩
  · intro entry he
    rw [engineInit_eventLog] at he
    rcases List.mem_cons.mp he with h | h
    · rw [h]
    · have h2 : entry = (EventKind.afterChange, []) := by simpa using h
      rw [h2]
  · intro j hj hsub
    have := initWidgets_afterHandlers_mem ws 0
      (sourceChange query src none (listenSelectionChange (listenInput (freshState src))))
      j hj hsub
    simpa [engineInit] using this

/-- Witness for C9: one complete widget gets its handler (id 1) registered. -/
theorem construction_cycle_unobserved_witness :
    (1 : Nat) ∈ (engineInit emptyQuery ['a'] [completeWidget]).afterHandlers := by
  have h := (construction_cycle_unobserved emptyQuery ['a'] ['b']
    [completeWidget]).2.1 0 (by decide) (by decide)
  simpa using h

/-! ### Disposal (claim C3) and the selection mapping (claims C7, C8) -/

/-- C3 evaluated: an engine built with the two widgets of the spec scenario
(`CodeCompleteWidget`, `CodeErrorWidget`) and then disposed still has the
complete widget's `keydown` listener live on the root — `dispose()` runs only
the engine's own disposal group and never the widgets' — so the residual
listener list is non-empty, contradicting the claim of zero residual
subscriptions. -/
theorem dispose_leaves_widget_listener :
    (dispose (engineInit emptyQuery [] [completeWidget, errorWidget])).hostListeners
        = [⟨HostTarget.root, HostEvent.keydown, 1⟩]
      ∧ (dispose (engineInit emptyQuery [] [completeWidget, errorWidget])).hostListeners
        ≠ [] := by
  decide

theorem findNode_none_of_all (segs : List Segment) (o : Int)
    (h : ∀ seg ∈ segs,
      ¬ ((seg.offset : Int) ≤ o ∧ o ≤ (seg.offset : Int) + seg.text.length)) :
    findNode segs o = none := by
  induction segs with
  | nil => rfl
  | cons a rest ih =>
      rw [findNode, if_neg (h a (List.mem_cons_self a rest))]
      exact ih fun seg hm => h seg (List.mem_cons_of_mem a hm)

/-- C7: mapping inverse — for any offset `o` lying within some rendered
segment, mapping `o` to a position (`findNode`: segment identity plus local
index `o - offset`) and mapping that position back to an absolute offset
(`positionToOffset`: segment offset plus local index) yields `o` again. -/
theorem offset_position_inverse (segs : List Segment) (o : Int)
    (h : ∃ seg, seg ∈ segs ∧ (seg.offset : Int) ≤ o
        ∧ o ≤ (seg.offset : Int) + seg.text.length) :
    (findNode segs o).map positionToOffset = some o := by
  induction segs with
  | nil =>
      obtain ⟨seg, hm, _⟩ := h
      cases hm
  | cons a rest ih =>
      rw [findNode]
      by_cases hc : (a.offset : Int) ≤ o ∧ o ≤ (a.offset : Int) + a.text.length
      · rw [if_pos hc]
        simp only [Option.map, positionToOffset]
        congr 1
        omega
      · rw [if_neg hc]
        apply ih
        obtain ⟨seg, hm, hio⟩ := h
        rcases List.mem_cons.mp hm with hm | hm
        · subst hm
          exact absurd hio hc
        · exact ⟨seg, hm, hio⟩

/-- Witness for C7: offset 1 inside the single segment `"ab"` at offset 0. -/
theorem offset_position_inverse_witness :
    (∃ seg, seg ∈ ([⟨[], ['a', 'b'], 0⟩] : List Segment)
        ∧ (seg.offset : Int) ≤ 1 ∧ 1 ≤ (seg.offset : Int) + seg.text.length)
      ∧ (findNode [⟨[], ['a', 'b'], 0⟩] 1).map positionToOffset = some 1 :=
  ⟨⟨⟨[], ['a', 'b'], 0⟩, by decide, by decide, by decide⟩,
    offset_position_inverse [⟨[], ['a', 'b'], 0⟩] 1
      ⟨⟨[], ['a', 'b'], 0⟩, by decide, by decide, by decide⟩⟩

/-- C8: stale offsets recover silently — an offset outside every rendered
segment maps to `none` rather than failing, and `restoreSelection` on a
recorded selection whose endpoints fail to map is a no-op: it returns the
state unchanged (in particular the recorded selection is untouched) and, being
a total function, raises nothing. -/
theorem stale_offset_skips_restore (st : EngineState) (sel : Selection) (o : Int)
    (hout : ∀ seg ∈ st.segments,
      ¬ ((seg.offset : Int) ≤ o ∧ o ≤ (seg.offset : Int) + seg.text.length))
    (hsel : st.sel = some sel)
    (hfail : findNode st.segments sel.start = none
        ∨ findNode st.segments sel.endPos = none) :
    findNode st.segments o = none ∧ restoreSelection st = st := by
  refine ⟨findNode_none_of_all st.segments o hout, ?_⟩
  unfold restoreSelection
  rw [hsel]
  unfold selectionToRange
  dsimp only
  rcases hfail with hf | hf
  · rw [hf]
  · rw [hf]
    cases findNode st.segments sel.start <;> rfl

/-- Witness for C8: the stale state `stStale` (segment `"a"` at offset 0,
recorded selection collapsed at 9) with probe offset 9. -/
theorem stale_offset_skips_restore_witness :
    (∀ seg ∈ stStale.segments,
        ¬ ((seg.offset : Int) ≤ 9 ∧ 9 ≤ (seg.offset : Int) + seg.text.length))
      ∧ stStale.sel = some ⟨9, 9⟩
      ∧ (findNode stStale.segments (Selection.mk 9 9).start = none
          ∨ findNode stStale.segments (Selection.mk 9 9).endPos = none)
      ∧ (findNode stStale.segments 9 = none
          ∧ restoreSelection stStale = stStale) :=
  ⟨by decide, rfl, Or.inl (by decide),
    stale_offset_skips_restore stStale ⟨9, 9⟩ 9 (by decide) rfl
      (Or.inl (by decide))⟩
